import Mathlib

/-!
# Tilt-event pipeline of `main/main.c`

A shallow embedding of the sampling task (`mpu6050_read_raw`, `mpu6050_task`),
the transmitter task (`uart_task`) and the queue that joins them, together
with the properties of the frame encoding, the threshold rule and the
hand-off that the specification states.

Conventions of the embedding.

* C integers are `Int`; every conversion to a narrower type is an explicit
  reduction (`toInt16`, `toUInt8`), and the bitwise operators of `int`
  act on the 32-bit two's-complement pattern (`bits32`, `toInt32`).
* Bytes (`uint8_t`) are natural numbers below 256.
* Angles (`float` in the source) are exact rationals.  The comparison with
  the literal `10` and the negation are exact on floats; the conversion
  `float → int` truncates toward zero and is defined by C only while the
  truncated value fits an `int`.
* The fusion library and the I2C bus are inputs: a cycle is given the
  Euler angles the filter returned, a read is given the bytes the bus
  returned.
-/

namespace Imu

/-! ## Machine integers -/

/-- Conversion of an `int` to `int16_t`: reduction modulo `2^16` into
`[-32768, 32767]`. -/
def toInt16 (x : Int) : Int :=
  let m := x % 65536
  if m < 32768 then m else m - 65536

/-- Conversion of an `int` to `uint8_t`: reduction modulo `2^8`. -/
def toUInt8 (x : Int) : Nat := (x % 256).toNat

/-- The 32-bit two's-complement pattern of an `int`. -/
def bits32 (x : Int) : Nat := (x % 4294967296).toNat

/-- The `int` whose 32-bit two's-complement pattern is `n mod 2^32`. -/
def toInt32 (n : Nat) : Int :=
  let m := n % 4294967296
  if m < 2147483648 then (m : Int) else (m : Int) - 4294967296

/-- The C operator `&` on `int`. -/
def int_and (x y : Int) : Int := toInt32 (bits32 x &&& bits32 y)

/-- The C operator `|` on `int`. -/
def int_or (x y : Int) : Int := toInt32 (bits32 x ||| bits32 y)

/-- The C operator `<<` on `int`. -/
def int_shl (x : Int) (s : Nat) : Int := toInt32 (bits32 x <<< s)

/-- The C operator `>>` on `int`, an arithmetic shift on the target. -/
def int_sar (x : Int) (s : Nat) : Int := Int.shiftRight x s

/-- Conversion `float → int`: the fractional part is discarded.  C defines the
conversion only while the truncated value lies in `[-2^31, 2^31 - 1]`, and
the function stands for the conversion on that range only; every statement
about an event value keeps the angle inside it. -/
def floatToInt (a : ℚ) : Int := Int.tdiv a.num a.den

/-! ## Data model -/

/-- The queue item `adc_t`. -/
structure adc_t where
  axis : Int
  val : Int
deriving DecidableEq, Repr

/-- The Euler angles `FusionEuler`, in degrees. -/
structure FusionEuler where
  roll : ℚ
  pitch : ℚ
  yaw : ℚ
deriving DecidableEq

/-- The three outputs of `mpu6050_read_raw`. -/
structure RawSample where
  accel : List Int
  gyro : List Int
  temp : Int
deriving DecidableEq, Repr

/-! ## Sensor decoding -/

/-- The expression `buffer[j] << 8 | buffer[j + 1]` stored into an
`int16_t`. -/
def be16 (hi lo : Nat) : Int := toInt16 (int_or (int_shl hi 8) lo)

/-- `mpu6050_read_raw`.  `bus reg j` is byte `j` of the block the device
returns after the register pointer `reg` was written. -/
def mpu6050_read_raw (bus : Nat → Nat → Nat) : RawSample :=
  let bufferA := fun j => bus 0x3B j
  let accel := (List.range 3).map fun i => be16 (bufferA (i * 2)) (bufferA (i * 2 + 1))
  let bufferG := fun j => bus 0x43 j
  let gyro := (List.range 3).map fun i => be16 (bufferG (i * 2)) (bufferG (i * 2 + 1))
  let bufferT := fun j => bus 0x41 j
  { accel := accel, gyro := gyro, temp := be16 (bufferT 0) (bufferT 1) }

/-! ## Sampling task -/

/-- The two assignments after `FusionQuaternionToEuler` in `mpu6050_task`. -/
def flip_roll_yaw (euler : FusionEuler) : FusionEuler :=
  { roll := -euler.roll, pitch := euler.pitch, yaw := -euler.yaw }

/-- The two `if` blocks that close the loop body of `mpu6050_task`: the items
handed to `xQueueSend`, in program order. -/
def tilt_events (euler : FusionEuler) : List adc_t :=
  (if euler.yaw > 10 ∨ euler.yaw < -10 then
      [{ axis := 0, val := floatToInt euler.yaw }]
    else []) ++
  (if euler.roll > 10 ∨ euler.roll < -10 then
      [{ axis := 1, val := floatToInt euler.roll }]
    else [])

/-- One iteration of the loop of `mpu6050_task`, from the angles returned by
the fusion filter to the items sent. -/
def mpu6050_cycle (native : FusionEuler) : List adc_t :=
  tilt_events (flip_roll_yaw native)

/-! ## Transmitter task -/

/-- The local `value` of `uart_task`. -/
def uart_value (adc : adc_t) : Int := toInt16 adc.val

/-- The array `packet` that `uart_task` writes for one received item. -/
def uart_packet (adc : adc_t) : List Nat :=
  let value := uart_value adc
  [toUInt8 adc.axis,
   toUInt8 (int_and (int_sar value 8) 0xFF),
   toUInt8 (int_and value 0xFF),
   toUInt8 0xFF]

/-- Reading of bytes 1 and 2 of a frame the way `mpu6050_read_raw` reads a
byte pair. -/
def decode_value (packet : List Nat) : Int :=
  be16 (packet.getD 1 0) (packet.getD 2 0)

/-! ## Queue -/

/-- The length given to `xQueueCreate` in `main`. -/
def queue_length : Nat := 32

/-- Modelled from the spec: the queue primitives are library code that is not
part of the sources.  `xQueueSend` with an unbounded wait appends at the
tail once the queue holds fewer than `queue_length` items; `none` stands for
a caller that is still blocked. -/
def xQueueSend (queue : List adc_t) (item : adc_t) : Option (List adc_t) :=
  if queue.length < queue_length then some (queue ++ [item]) else none

/-- Modelled from the spec: `xQueueReceive` with an unbounded wait removes
the head item; `none` stands for a caller blocked on an empty queue. -/
def xQueueReceive (queue : List adc_t) : Option (adc_t × List adc_t) :=
  match queue with
  | [] => none
  | item :: rest => some (item, rest)

/-- State of the two tasks and the queue.  `pending` holds the items of the
current sampling cycle not yet sent; `detected` and `produced` record every
item detected and every item sent so far; `uart` is the byte stream written. -/
structure Pipeline where
  pending : List adc_t
  queue : List adc_t
  detected : List adc_t
  produced : List adc_t
  uart : List Nat

/-- State at the start of the scheduler. -/
def Pipeline.init : Pipeline :=
  { pending := [], queue := [], detected := [], produced := [], uart := [] }

/-- Atomic steps of the pipeline. -/
inductive Step : Pipeline → Pipeline → Prop
  | sample (s : Pipeline) (native : FusionEuler) (h : s.pending = []) :
      Step s { s with pending := mpu6050_cycle native,
                      detected := s.detected ++ mpu6050_cycle native }
  | send (s : Pipeline) (item : adc_t) (rest queue' : List adc_t)
      (hp : s.pending = item :: rest) (hq : xQueueSend s.queue item = some queue') :
      Step s { s with pending := rest, queue := queue',
                      produced := s.produced ++ [item] }
  | receive (s : Pipeline) (item : adc_t) (queue' : List adc_t)
      (hq : xQueueReceive s.queue = some (item, queue')) :
      Step s { s with queue := queue', uart := s.uart ++ uart_packet item }

/-- States reached from `Pipeline.init`. -/
inductive Reachable : Pipeline → Prop
  | init : Reachable Pipeline.init
  | step (s t : Pipeline) (hs : Reachable s) (ht : Step s t) : Reachable t

/-- The sampling task sends the given items in order; `none` when a send
would block. -/
def send_all (queue : List adc_t) : List adc_t → Option (List adc_t)
  | [] => some queue
  | item :: rest =>
    match xQueueSend queue item with
    | none => none
    | some queue' => send_all queue' rest

/-- Run of `uart_task` for at most `fuel` iterations, stopping when a receive
would block: the queue left and the bytes written. -/
def uart_task : Nat → List adc_t → List Nat → List adc_t × List Nat
  | 0, queue, out => (queue, out)
  | fuel + 1, queue, out =>
    match xQueueReceive queue with
    | none => (queue, out)
    | some (item, queue') => uart_task fuel queue' (out ++ uart_packet item)

/-- A state of the pipeline after one sample with a filter yaw of -15 and roll
of 20 degrees, one send and one receive. -/
def sample_state : Pipeline :=
  { pending := [{ axis := 1, val := -20 }],
    queue := [],
    detected := [{ axis := 0, val := 15 }, { axis := 1, val := -20 }],
    produced := [{ axis := 0, val := 15 }],
    uart := [0x00, 0x00, 0x0F, 0xFF] }

/-! ## Reference notions of the specification -/

/-- The specification's `round`: the nearest integer. -/
def spec_round (a : ℚ) : Int := round a

/-- Truncation toward zero, by floor and ceiling. -/
def spec_trunc (a : ℚ) : Int := if 0 ≤ a then ⌊a⌋ else ⌈a⌉

/-- High byte of the 16-bit two's-complement representation. -/
def spec_hi (v : Int) : Nat := ((v % 65536) / 256).toNat

/-- Low byte of the 16-bit two's-complement representation. -/
def spec_lo (v : Int) : Nat := (v % 256).toNat

/-- The signed 16-bit big-endian value of a byte pair. -/
def spec_be16 (hi lo : Nat) : Int :=
  if 256 * hi + lo < 32768 then (256 * hi + lo : Int) else (256 * hi + lo : Int) - 65536

/-! ## Arithmetic of the machine operations -/

theorem toInt16_of_range {x : Int} (h1 : -32768 ≤ x) (h2 : x ≤ 32767) : toInt16 x = x := by
  unfold toInt16
  simp only
  split <;> omega

theorem toInt16_emod (x : Int) : toInt16 x % 256 = x % 256 := by
  unfold toInt16
  simp only
  split <;> omega

theorem toInt16_bounds (x : Int) : -32768 ≤ toInt16 x ∧ toInt16 x ≤ 32767 := by
  unfold toInt16
  simp only
  split <;> omega

theorem int_and_255 (x : Int) : int_and x 0xFF = x % 256 := by
  unfold int_and
  have h255 : bits32 0xFF = 2 ^ 8 - 1 := by decide
  rw [h255, Nat.and_pow_two_sub_one_eq_mod]
  unfold toInt32 bits32
  simp only
  have hx : (0 : Int) ≤ x % 4294967296 := Int.emod_nonneg _ (by norm_num)
  have hc : (((x % 4294967296).toNat : Nat) : Int) = x % 4294967296 := Int.toNat_of_nonneg hx
  have hm : (((x % 4294967296).toNat % 2 ^ 8 : Nat) : Int) = x % 256 := by
    push_cast
    rw [hc]
    omega
  have hlt : (x % 4294967296).toNat % 2 ^ 8 < 256 := Nat.mod_lt _ (by norm_num)
  rw [Nat.mod_eq_of_lt (by omega : (x % 4294967296).toNat % 2 ^ 8 < 4294967296)]
  rw [if_pos (by omega)]
  exact hm

theorem int_sar_8 (x : Int) : int_sar x 8 = x / 256 := by
  unfold int_sar
  have := Int.shiftRight_eq_div_pow x 8
  simpa using this

theorem be16_eq {hi lo : Nat} (h1 : hi < 256) (h2 : lo < 256) :
    be16 hi lo = toInt16 (256 * hi + lo) := by
  unfold be16 int_or int_shl
  have b1 : bits32 (hi : Int) = hi := by
    unfold bits32
    have : (hi : Int) % 4294967296 = hi := by omega
    rw [this]; simp
  have b2 : bits32 (lo : Int) = lo := by
    unfold bits32
    have : (lo : Int) % 4294967296 = lo := by omega
    rw [this]; simp
  have s1 : hi <<< 8 = 256 * hi := by rw [Nat.shiftLeft_eq]; omega
  have t1 : toInt32 (256 * hi) = ((256 * hi : Nat) : Int) := by
    unfold toInt32
    simp only
    rw [Nat.mod_eq_of_lt (by omega), if_pos (by omega)]
  have b3 : bits32 ((256 * hi : Nat) : Int) = 256 * hi := by
    unfold bits32
    have : ((256 * hi : Nat) : Int) % 4294967296 = (256 * hi : Nat) := by omega
    rw [this]; omega
  have o1 : 256 * hi ||| lo = 256 * hi + lo := by
    have := Nat.mul_add_lt_is_or (by simpa using h2 : lo < 2 ^ 8) hi
    simpa using this.symm
  have t2 : toInt32 (256 * hi + lo) = ((256 * hi + lo : Nat) : Int) := by
    unfold toInt32
    simp only
    rw [Nat.mod_eq_of_lt (by omega), if_pos (by omega)]
  rw [b1, b2, s1, t1, b3, o1, t2]
  push_cast
  rfl

theorem spec_be16_eq {hi lo : Nat} (h1 : hi < 256) (h2 : lo < 256) :
    be16 hi lo = spec_be16 hi lo := by
  rw [be16_eq h1 h2]
  unfold toInt16 spec_be16
  simp only
  split <;> split <;> omega

theorem packet_eq (adc : adc_t) :
    uart_packet adc =
      [(adc.axis % 256).toNat, spec_hi (toInt16 adc.val), spec_lo (toInt16 adc.val), 0xFF] := by
  unfold uart_packet uart_value
  simp only [int_and_255, int_sar_8]
  unfold toUInt8 spec_hi spec_lo
  have hb := toInt16_bounds adc.val
  have e1 : toInt16 adc.val / 256 % 256 % 256 = toInt16 adc.val % 65536 / 256 := by omega
  have e2 : toInt16 adc.val % 256 % 256 = toInt16 adc.val % 256 := by omega
  rw [e1, e2]
  rfl

theorem floatToInt_of_nonneg {a : ℚ} (h : 0 ≤ a) : floatToInt a = ⌊a⌋ := by
  unfold floatToInt
  rw [Int.tdiv_eq_ediv (Rat.num_nonneg.mpr h) (Int.natCast_nonneg _), Rat.floor_def]

theorem floatToInt_neg (a : ℚ) : floatToInt (-a) = -floatToInt a := by
  unfold floatToInt
  rw [Rat.num_neg_eq_neg_num, Rat.den_neg_eq_den, Int.neg_tdiv]

theorem floatToInt_of_nonpos {a : ℚ} (h : a ≤ 0) : floatToInt a = ⌈a⌉ := by
  have h1 := floatToInt_of_nonneg (a := -a) (by linarith)
  rw [floatToInt_neg, Int.floor_neg] at h1
  omega

theorem floatToInt_eq_trunc (a : ℚ) : floatToInt a = spec_trunc a := by
  unfold spec_trunc
  split
  · exact floatToInt_of_nonneg (by assumption)
  · exact floatToInt_of_nonpos (by linarith)

theorem floatToInt_pos_bounds {a : ℚ} {n m : Int} (h1 : (n : ℚ) ≤ a) (h2 : a ≤ m) (hn : 0 ≤ n) :
    n ≤ floatToInt a ∧ floatToInt a ≤ m := by
  have h0 : (0 : ℚ) ≤ a := le_trans (by exact_mod_cast hn) h1
  rw [floatToInt_of_nonneg h0]
  refine ⟨Int.le_floor.mpr h1, ?_⟩
  have : (⌊a⌋ : ℚ) ≤ m := le_trans (Int.floor_le a) h2
  exact_mod_cast this

theorem floatToInt_neg_bounds {a : ℚ} {n m : Int} (h1 : (n : ℚ) ≤ a) (h2 : a ≤ m) (hm : m ≤ 0) :
    n ≤ floatToInt a ∧ floatToInt a ≤ m := by
  have h0 : a ≤ (0 : ℚ) := le_trans h2 (by exact_mod_cast hm)
  rw [floatToInt_of_nonpos h0]
  refine ⟨?_, Int.ceil_le.mpr h2⟩
  have : (n : ℚ) ≤ ⌈a⌉ := le_trans h1 (Int.le_ceil a)
  exact_mod_cast this

theorem floatToInt_fits {a : ℚ} (h : |a| < 2147483648) :
    -2147483648 ≤ floatToInt a ∧ floatToInt a ≤ 2147483647 := by
  obtain ⟨h1, h2⟩ := abs_lt.mp h
  rcases le_total 0 a with h0 | h0
  · rw [floatToInt_of_nonneg h0]
    have hn : 0 ≤ ⌊a⌋ := Int.floor_nonneg.mpr h0
    have hl : ⌊a⌋ < 2147483648 := Int.floor_lt.mpr (by exact_mod_cast h2)
    omega
  · rw [floatToInt_of_nonpos h0]
    have hn : ⌈a⌉ ≤ 0 := Int.ceil_le.mpr (by exact_mod_cast h0)
    have hl : -2147483648 < ⌈a⌉ := Int.lt_ceil.mpr (by exact_mod_cast h1)
    omega

theorem floatToInt_intCast (n : Int) : floatToInt (n : ℚ) = n := by
  unfold floatToInt
  rw [Rat.num_intCast, Rat.den_intCast]
  exact Int.tdiv_one n

/-! ## Frame encoding -/

/-- C1: for every tilt event whose axis is 0 or 1 and whose value lies in the
signed 16-bit range, the frame built by `uart_task` is exactly the four bytes
`[axis, hi, lo, 0xFF]`, with `hi` and `lo` the high and low byte of the 16-bit
two's-complement representation of the value, so that
`256 * hi + lo = value mod 65536`. -/
theorem uart_packet_frame (axis val : Int) (ha : axis = 0 ∨ axis = 1)
    (h1 : -32768 ≤ val) (h2 : val ≤ 32767) :
    uart_packet { axis := axis, val := val } =
        [axis.toNat, spec_hi val, spec_lo val, 0xFF] ∧
      (uart_packet { axis := axis, val := val }).length = 4 ∧
      spec_hi val < 256 ∧ spec_lo val < 256 ∧
      256 * (spec_hi val : Int) + (spec_lo val : Int) = val % 65536 := by
  have hp := packet_eq { axis := axis, val := val }
  simp only [toInt16_of_range h1 h2] at hp
  have hax : (axis % 256).toNat = axis.toNat := by
    rcases ha with h | h <;> subst h <;> rfl
  rw [hax] at hp
  refine ⟨hp, by rw [hp]; rfl, ?_, ?_, ?_⟩
  all_goals (simp only [spec_hi, spec_lo]; omega)

/-- Check of `uart_packet_frame` on the roll event of value -20. -/
theorem uart_packet_frame_witness :
    uart_packet { axis := 1, val := -20 } = [1, 0xFF, 0xEC, 0xFF] ∧
      (256 : Int) * 0xFF + 0xEC = -20 % 65536 := by
  have h := uart_packet_frame 1 (-20) (Or.inr rfl) (by decide) (by decide)
  exact ⟨h.1, by decide⟩

/-- C2: for every signed 16-bit value `v`, reading bytes 1 and 2 of the frame
that `uart_task` builds for `v` as a big-endian signed 16-bit integer, the way
`mpu6050_read_raw` reads sensor bytes, gives `v` back. -/
theorem decode_encode (axis v : Int) (h1 : -32768 ≤ v) (h2 : v ≤ 32767) :
    decode_value (uart_packet { axis := axis, val := v }) = v := by
  rw [packet_eq]
  simp only [toInt16_of_range h1 h2]
  unfold decode_value
  simp only [List.getD_cons_succ, List.getD_cons_zero]
  have hh : spec_hi v < 256 := by unfold spec_hi; omega
  have hl : spec_lo v < 256 := by unfold spec_lo; omega
  rw [be16_eq hh hl]
  have e : (256 * (spec_hi v : Int) + (spec_lo v : Int)) = v % 65536 := by
    unfold spec_hi spec_lo; omega
  rw [e]
  unfold toInt16
  simp only
  split <;> omega

/-- Check of `decode_encode` on the value -20. -/
theorem decode_encode_witness :
    decode_value (uart_packet { axis := 1, val := -20 }) = -20 :=
  decode_encode 1 (-20) (by decide) (by decide)

/-! ## Sensor decoding -/

/-- C7: for every block of bytes read at the acceleration (0x3B) or angular
rate (0x43) registers and every `i` in `{0, 1, 2}`, the `i`-th value decoded
by `mpu6050_read_raw` is the signed 16-bit big-endian reading of the byte pair
`(buffer[2i], buffer[2i+1])`, that is `256 * buffer[2i] + buffer[2i+1]`
reduced into `[-32768, 32767]`; the temperature is the same reading of the
two bytes read at 0x41. -/
theorem mpu6050_read_raw_decodes (bus : Nat → Nat → Nat) (hb : ∀ reg j, bus reg j < 256) :
    (∀ i, i < 3 → (mpu6050_read_raw bus).accel[i]? =
        some (spec_be16 (bus 0x3B (2 * i)) (bus 0x3B (2 * i + 1)))) ∧
      (∀ i, i < 3 → (mpu6050_read_raw bus).gyro[i]? =
        some (spec_be16 (bus 0x43 (2 * i)) (bus 0x43 (2 * i + 1)))) ∧
      (mpu6050_read_raw bus).temp = spec_be16 (bus 0x41 0) (bus 0x41 1) ∧
      (∀ hi lo, hi < 256 → lo < 256 →
        -32768 ≤ spec_be16 hi lo ∧ spec_be16 hi lo ≤ 32767 ∧
          spec_be16 hi lo % 65536 = 256 * (hi : Int) + (lo : Int)) := by
  have hr : List.range 3 = [0, 1, 2] := by decide
  refine ⟨?_, ?_, ?_, ?_⟩
  · intro i hi
    unfold mpu6050_read_raw
    simp only [hr, List.map]
    interval_cases i <;> simp [spec_be16_eq (hb _ _) (hb _ _)]
  · intro i hi
    unfold mpu6050_read_raw
    simp only [hr, List.map]
    interval_cases i <;> simp [spec_be16_eq (hb _ _) (hb _ _)]
  · unfold mpu6050_read_raw
    simp only [spec_be16_eq (hb _ _) (hb _ _)]
  · intro hi lo h1 h2
    unfold spec_be16
    split <;> omega

/-- Check of `mpu6050_read_raw_decodes` on a bus that returns `0xFF` then
`0xEC`, alternating: every decoded value is -20. -/
theorem mpu6050_read_raw_decodes_witness :
    (mpu6050_read_raw fun _ j => if j % 2 = 0 then 0xFF else 0xEC).accel[1]? = some (-20) ∧
      (mpu6050_read_raw fun _ j => if j % 2 = 0 then 0xFF else 0xEC).temp = -20 := by
  have h := mpu6050_read_raw_decodes (fun _ j => if j % 2 = 0 then 0xFF else 0xEC)
    (by intro _ j; show (if j % 2 = 0 then 255 else 236) < 256; split <;> decide)
  exact ⟨h.1 1 (by decide), h.2.2.1⟩

/-- C10: the terminator byte is not unique inside a frame.  For every event
value `v` with `-256 ≤ v ≤ -1`, and so for every event produced from a
negative angle in `[-180, -10)`, byte 1 of the frame built by `uart_task` is
`0xFF`, the same as the terminator in byte 3; for every `v` with
`0 ≤ v ≤ 255` byte 1 is `0x00`.  Byte 2 is `0xFF` only when
`v mod 256 = 255`, which no value with `10 ≤ |v| ≤ 180` satisfies. -/
theorem terminator_not_unique (axis v : Int) :
    (-256 ≤ v → v ≤ -1 →
        (uart_packet { axis := axis, val := v }).getD 1 0 = 0xFF ∧
          (uart_packet { axis := axis, val := v }).getD 3 0 = 0xFF) ∧
      (0 ≤ v → v ≤ 255 → (uart_packet { axis := axis, val := v }).getD 1 0 = 0x00) ∧
      ((uart_packet { axis := axis, val := v }).getD 2 0 = 0xFF ↔ v % 256 = 255) ∧
      (10 ≤ |v| → |v| ≤ 180 → (uart_packet { axis := axis, val := v }).getD 2 0 ≠ 0xFF) ∧
      (∀ a : ℚ, -180 ≤ a → a < -10 →
        (uart_packet { axis := axis, val := floatToInt a }).getD 1 0 = 0xFF) := by
  have hneg : ∀ w : Int, -256 ≤ w → w ≤ -1 →
      (uart_packet { axis := axis, val := w }).getD 1 0 = 0xFF := by
    intro w h1 h2
    rw [packet_eq]
    simp only [List.getD_cons_succ, List.getD_cons_zero]
    rw [toInt16_of_range (by omega) (by omega)]
    unfold spec_hi
    omega
  have hlo : (uart_packet { axis := axis, val := v }).getD 2 0 = 0xFF ↔ v % 256 = 255 := by
    rw [packet_eq]
    simp only [List.getD_cons_succ, List.getD_cons_zero]
    unfold spec_lo
    have := toInt16_emod v
    omega
  refine ⟨?_, ?_, hlo, ?_, ?_⟩
  · intro h1 h2
    refine ⟨hneg v h1 h2, ?_⟩
    rw [packet_eq]
    rfl
  · intro h1 h2
    rw [packet_eq]
    simp only [List.getD_cons_succ, List.getD_cons_zero]
    rw [toInt16_of_range (by omega) (by omega)]
    unfold spec_hi
    omega
  · intro h1 h2
    rw [Ne, hlo]
    rcases abs_cases v with ⟨h, _⟩ | ⟨h, _⟩ <;> rw [h] at h1 h2 <;> omega
  · intro a h1 h2
    have hb := floatToInt_neg_bounds (a := a) (n := -180) (m := -10)
      (by exact_mod_cast h1) (by exact_mod_cast h2.le) (by decide)
    exact hneg _ (by omega) (by omega)

/-- Check of `terminator_not_unique` on the value -20: bytes 1 and 3 are both
`0xFF`. -/
theorem terminator_not_unique_witness :
    (uart_packet { axis := 1, val := -20 }).getD 1 0 = 0xFF ∧
      (uart_packet { axis := 1, val := -20 }).getD 3 0 = 0xFF :=
  (terminator_not_unique 1 (-20)).1 (by decide) (by decide)

/-! ## Threshold rule -/

theorem yaw_fires_iff (euler : FusionEuler) :
    (∃ ev ∈ tilt_events euler, ev.axis = 0) ↔ (euler.yaw > 10 ∨ euler.yaw < -10) := by
  unfold tilt_events
  constructor
  · rintro ⟨ev, hm, h0⟩
    by_contra hc
    rw [if_neg hc] at hm
    split at hm <;> simp at hm
    rw [hm] at h0
    simp at h0
  · intro h
    exact ⟨{ axis := 0, val := floatToInt euler.yaw }, by rw [if_pos h]; simp, rfl⟩

theorem roll_fires_iff (euler : FusionEuler) :
    (∃ ev ∈ tilt_events euler, ev.axis = 1) ↔ (euler.roll > 10 ∨ euler.roll < -10) := by
  unfold tilt_events
  constructor
  · rintro ⟨ev, hm, h1⟩
    by_contra hc
    rw [if_neg hc] at hm
    split at hm <;> simp at hm
    rw [hm] at h1
    simp at h1
  · intro h
    exact ⟨{ axis := 1, val := floatToInt euler.roll }, by rw [if_pos h]; simp, rfl⟩

/-- C3: with exact rational angles, the tilt detector of `mpu6050_task` emits
a YAW event (axis 0) if and only if `yaw > 10` or `yaw < -10`, and a ROLL
event (axis 1) if and only if `roll > 10` or `roll < -10`; each decision
depends on its own angle only.  An angle of exactly `10` or `-10` emits no
event, an angle of `10.0001` or `-10.0001` emits one. -/
theorem tilt_threshold (euler : FusionEuler) :
    ((∃ ev ∈ tilt_events euler, ev.axis = 0) ↔ (euler.yaw > 10 ∨ euler.yaw < -10)) ∧
      ((∃ ev ∈ tilt_events euler, ev.axis = 1) ↔ (euler.roll > 10 ∨ euler.roll < -10)) ∧
      (tilt_events euler).map (fun ev => ev.axis) =
        (if euler.yaw > 10 ∨ euler.yaw < -10 then [0] else []) ++
          (if euler.roll > 10 ∨ euler.roll < -10 then [1] else []) ∧
      tilt_events { roll := 10, pitch := euler.pitch, yaw := 10 } = [] ∧
      tilt_events { roll := -10, pitch := euler.pitch, yaw := -10 } = [] ∧
      (tilt_events { roll := 10, pitch := euler.pitch, yaw := 100001 / 10000 }).map
        (fun ev => ev.axis) = [0] ∧
      (tilt_events { roll := -100001 / 10000, pitch := euler.pitch, yaw := -10 }).map
        (fun ev => ev.axis) = [1] ∧
      (tilt_events { roll := 100001 / 10000, pitch := euler.pitch,
                     yaw := -100001 / 10000 }).map (fun ev => ev.axis) = [0, 1] := by
  refine ⟨yaw_fires_iff euler, roll_fires_iff euler, ?_, ?_, ?_, ?_, ?_, ?_⟩
  · unfold tilt_events
    split <;> split <;> rfl
  all_goals (unfold tilt_events; norm_num)

theorem mem_tilt_events {euler : FusionEuler} {ev : adc_t} (h : ev ∈ tilt_events euler) :
    (ev = { axis := 0, val := floatToInt euler.yaw } ∧ (euler.yaw > 10 ∨ euler.yaw < -10)) ∨
      (ev = { axis := 1, val := floatToInt euler.roll } ∧
        (euler.roll > 10 ∨ euler.roll < -10)) := by
  unfold tilt_events at h
  rcases List.mem_append.mp h with h1 | h1
  · left
    split at h1
    · exact ⟨by simpa using h1, by assumption⟩
    · simp at h1
  · right
    split at h1
    · exact ⟨by simpa using h1, by assumption⟩
    · simp at h1

/-! ## Event value -/

/-- C4, as the code has it: for every yaw (resp. roll) angle that triggers an
event and whose magnitude is below `2^31`, where the conversion to `int` is
defined (every Euler angle, within 180 degrees, is such), exactly one event of
axis 0 (resp. 1) is emitted, and the value it carries is the angle truncated
toward zero (the floor of a positive angle, the ceiling of a negative one),
a value that fits a 32-bit `int`; it is not the angle rounded to the nearest
integer. -/
theorem event_value_truncated (euler : FusionEuler) :
    ((euler.yaw > 10 ∨ euler.yaw < -10) → |euler.yaw| < 2147483648 →
        (tilt_events euler).filter (fun ev => ev.axis = 0) =
            [{ axis := 0, val := spec_trunc euler.yaw }] ∧
          -2147483648 ≤ spec_trunc euler.yaw ∧ spec_trunc euler.yaw ≤ 2147483647) ∧
      ((euler.roll > 10 ∨ euler.roll < -10) → |euler.roll| < 2147483648 →
        (tilt_events euler).filter (fun ev => ev.axis = 1) =
            [{ axis := 1, val := spec_trunc euler.roll }] ∧
          -2147483648 ≤ spec_trunc euler.roll ∧ spec_trunc euler.roll ≤ 2147483647) := by
  constructor
  · intro h hb
    have hf := floatToInt_fits hb
    rw [floatToInt_eq_trunc euler.yaw] at hf
    refine ⟨?_, hf⟩
    unfold tilt_events
    rw [if_pos h, floatToInt_eq_trunc euler.yaw]
    split <;> simp [List.filter]
  · intro h hb
    have hf := floatToInt_fits hb
    rw [floatToInt_eq_trunc euler.roll] at hf
    refine ⟨?_, hf⟩
    unfold tilt_events
    rw [if_pos h, floatToInt_eq_trunc euler.roll]
    split <;> simp [List.filter]

/-- Check of `event_value_truncated` on a yaw of 10.6 degrees: the event
carries the value 10. -/
theorem event_value_truncated_witness :
    (tilt_events { roll := 0, pitch := 0, yaw := 53 / 5 }).filter (fun ev => ev.axis = 0) =
        [{ axis := 0, val := spec_trunc (53 / 5) }] ∧
      spec_trunc (53 / 5) = 10 :=
  ⟨((event_value_truncated { roll := 0, pitch := 0, yaw := 53 / 5 }).1
      (Or.inl (by norm_num)) (by norm_num [abs_lt])).1,
    by unfold spec_trunc; norm_num [Int.floor_eq_iff]⟩

/-- C4 fails as stated: a yaw of 10.6 degrees triggers an event, the event
carries 10, and the nearest integer is 11. -/
theorem event_value_not_rounded :
    ((53 / 5 : ℚ) > 10 ∨ (53 / 5 : ℚ) < -10) ∧
      tilt_events { roll := 0, pitch := 0, yaw := 53 / 5 } = [{ axis := 0, val := 10 }] ∧
      spec_round (53 / 5) = 11 ∧
      ¬ ∀ euler : FusionEuler, (euler.yaw > 10 ∨ euler.yaw < -10) →
          (tilt_events euler).filter (fun ev => ev.axis = 0) =
            [{ axis := 0, val := spec_round euler.yaw }] := by
  have hv : floatToInt (53 / 5) = 10 := by
    rw [floatToInt_of_nonneg (by norm_num)]
    norm_num [Int.floor_eq_iff]
  have hr : spec_round (53 / 5) = 11 := by
    unfold spec_round
    norm_num [round_eq, Int.floor_eq_iff]
  have ht : tilt_events { roll := 0, pitch := 0, yaw := 53 / 5 } = [{ axis := 0, val := 10 }] := by
    unfold tilt_events
    norm_num [hv]
  refine ⟨Or.inl (by norm_num), ht, hr, ?_⟩
  intro hall
  have h := hall { roll := 0, pitch := 0, yaw := 53 / 5 } (Or.inl (by norm_num))
  rw [ht, hr] at h
  simp [List.filter] at h

/-- C5: for every angle `a` that triggers an event and has `|a| ≤ 180`, the
signed 16-bit value that `uart_task` encodes for the event is `a` truncated
toward zero, the conversion from `int` to `int16_t` does not wrap, the value
has the sign of `a`, and its magnitude is at least 10. -/
theorem encoded_value_truncated (euler : FusionEuler) (ev : adc_t)
    (hev : ev ∈ tilt_events euler)
    (hr : |if ev.axis = 0 then euler.yaw else euler.roll| ≤ 180) :
    uart_value ev = spec_trunc (if ev.axis = 0 then euler.yaw else euler.roll) ∧
      uart_value ev = ev.val ∧
      (0 < (if ev.axis = 0 then euler.yaw else euler.roll) → 0 < uart_value ev) ∧
      ((if ev.axis = 0 then euler.yaw else euler.roll) < 0 → uart_value ev < 0) ∧
      10 ≤ |uart_value ev| ∧ |uart_value ev| ≤ 180 := by
  have key : ∀ a : ℚ, (a > 10 ∨ a < -10) → |a| ≤ 180 →
      toInt16 (floatToInt a) = spec_trunc a ∧ toInt16 (floatToInt a) = floatToInt a ∧
        (0 < a → 0 < toInt16 (floatToInt a)) ∧ (a < 0 → toInt16 (floatToInt a) < 0) ∧
        10 ≤ |toInt16 (floatToInt a)| ∧ |toInt16 (floatToInt a)| ≤ 180 := by
    intro a ht hb
    have hb2 := abs_le.mp hb
    rcases ht with h | h
    · have b := floatToInt_pos_bounds (a := a) (n := 10) (m := 180)
        (by exact_mod_cast h.le) (by exact_mod_cast hb2.2) (by decide)
      rw [toInt16_of_range (by omega) (by omega)]
      refine ⟨floatToInt_eq_trunc a, rfl, fun _ => by omega, fun h0 => by linarith, ?_, ?_⟩
      · rw [abs_of_nonneg (by omega)]; omega
      · rw [abs_of_nonneg (by omega)]; omega
    · have b := floatToInt_neg_bounds (a := a) (n := -180) (m := -10)
        (by exact_mod_cast hb2.1) (by exact_mod_cast h.le) (by decide)
      rw [toInt16_of_range (by omega) (by omega)]
      refine ⟨floatToInt_eq_trunc a, rfl, fun h0 => by linarith, fun _ => by omega, ?_, ?_⟩
      · rw [abs_of_nonpos (by omega)]; omega
      · rw [abs_of_nonpos (by omega)]; omega
  rcases mem_tilt_events hev with ⟨he, ht⟩ | ⟨he, ht⟩
  · subst he
    simp only [if_true] at hr
    simpa [uart_value] using key euler.yaw ht hr
  · subst he
    simp only [one_ne_zero, if_false] at hr
    simpa [uart_value] using key euler.roll ht hr

/-- Check of `encoded_value_truncated` on a roll of -20.5 degrees. -/
theorem encoded_value_truncated_witness :
    uart_value { axis := 1, val := floatToInt (-41 / 2) } = spec_trunc (-41 / 2) ∧
      uart_value { axis := 1, val := floatToInt (-41 / 2) } < 0 := by
  have hm : ({ axis := 1, val := floatToInt (-41 / 2) } : adc_t) ∈
      tilt_events { roll := -41 / 2, pitch := 0, yaw := 0 } := by
    unfold tilt_events
    norm_num
  have h := encoded_value_truncated { roll := -41 / 2, pitch := 0, yaw := 0 }
    { axis := 1, val := floatToInt (-41 / 2) } hm (by norm_num [abs_le])
  exact ⟨by simpa using h.1, h.2.2.2.1 (by norm_num)⟩

/-! ## Sign convention -/

theorem floatToInt_ge_ten {a : ℚ} (h : 10 < a) : 10 ≤ floatToInt a := by
  rw [floatToInt_of_nonneg (by linarith)]
  exact Int.le_floor.mpr (by exact_mod_cast h.le)

theorem flipped_value_sign {a : ℚ} (h : -a > 10 ∨ -a < -10) (hb : |a| < 2147483648) :
    floatToInt (-a) = -floatToInt a ∧
      (-2147483648 ≤ floatToInt (-a) ∧ floatToInt (-a) ≤ 2147483647) ∧
      (0 < a → floatToInt (-a) < 0) ∧ (a < 0 → 0 < floatToInt (-a)) := by
  refine ⟨floatToInt_neg a, floatToInt_fits (by rwa [abs_neg]), ?_, ?_⟩
  · intro h0
    have h1 : 10 < a := by rcases h with h | h <;> linarith
    have := floatToInt_ge_ten h1
    rw [floatToInt_neg]
    omega
  · intro h0
    have h1 : 10 < -a := by rcases h with h | h <;> linarith
    have := floatToInt_ge_ten h1
    omega

/-- C8: for every Euler output `(roll, pitch, yaw)` of the fusion filter, the
angles that `mpu6050_task` passes to the tilt detector are
`(-roll, pitch, -yaw)`.  So a YAW (resp. ROLL) event fires if and only if the
filter's yaw (resp. roll) is `> 10` or `< -10`; and for an angle of magnitude
below `2^31`, where the conversion to `int` is defined (every Euler angle,
within 180 degrees, is such), the event value fits a 32-bit `int` and its sign
is the opposite of the sign of the filter's angle. -/
theorem sign_convention (native : FusionEuler) :
    flip_roll_yaw native =
        { roll := -native.roll, pitch := native.pitch, yaw := -native.yaw } ∧
      mpu6050_cycle native =
        tilt_events { roll := -native.roll, pitch := native.pitch, yaw := -native.yaw } ∧
      ((∃ ev ∈ mpu6050_cycle native, ev.axis = 0) ↔ (native.yaw > 10 ∨ native.yaw < -10)) ∧
      ((∃ ev ∈ mpu6050_cycle native, ev.axis = 1) ↔
        (native.roll > 10 ∨ native.roll < -10)) ∧
      (∀ ev ∈ mpu6050_cycle native, ev.axis = 0 → |native.yaw| < 2147483648 →
        ev.val = -floatToInt native.yaw ∧
          (-2147483648 ≤ ev.val ∧ ev.val ≤ 2147483647) ∧
          (0 < native.yaw → ev.val < 0) ∧ (native.yaw < 0 → 0 < ev.val)) ∧
      (∀ ev ∈ mpu6050_cycle native, ev.axis = 1 → |native.roll| < 2147483648 →
        ev.val = -floatToInt native.roll ∧
          (-2147483648 ≤ ev.val ∧ ev.val ≤ 2147483647) ∧
          (0 < native.roll → ev.val < 0) ∧ (native.roll < 0 → 0 < ev.val)) := by
  refine ⟨rfl, rfl, ?_, ?_, ?_, ?_⟩
  · unfold mpu6050_cycle
    rw [yaw_fires_iff]
    unfold flip_roll_yaw
    simp only
    constructor <;> (intro h; rcases h with h | h)
    · right; linarith
    · left; linarith
    · right; linarith
    · left; linarith
  · unfold mpu6050_cycle
    rw [roll_fires_iff]
    unfold flip_roll_yaw
    simp only
    constructor <;> (intro h; rcases h with h | h)
    · right; linarith
    · left; linarith
    · right; linarith
    · left; linarith
  · intro ev hev h0 hb
    rcases mem_tilt_events hev with ⟨he, ht⟩ | ⟨he, _⟩
    · subst he
      exact flipped_value_sign ht hb
    · subst he
      simp at h0
  · intro ev hev h1 hb
    rcases mem_tilt_events hev with ⟨he, _⟩ | ⟨he, ht⟩
    · subst he
      simp at h1
    · subst he
      exact flipped_value_sign ht hb

/-- Check of `sign_convention` on a filter yaw of 15 degrees: the event sent
carries -15. -/
theorem sign_convention_witness :
    ({ axis := 0, val := -15 } : adc_t) ∈ mpu6050_cycle { roll := 0, pitch := 0, yaw := 15 } ∧
      ({ axis := 0, val := -15 } : adc_t).val < 0 := by
  have hv : floatToInt (-15 : ℚ) = -15 := by
    have := floatToInt_intCast (-15)
    simpa using this
  have hm : ({ axis := 0, val := -15 } : adc_t) ∈
      mpu6050_cycle { roll := 0, pitch := 0, yaw := 15 } := by
    unfold mpu6050_cycle flip_roll_yaw tilt_events
    norm_num [hv]
  exact ⟨hm, ((sign_convention { roll := 0, pitch := 0, yaw := 15 }).2.2.2.2.1
    { axis := 0, val := -15 } hm rfl (by norm_num [abs_lt])).2.2.1 (by norm_num)⟩

/-! ## One sampling cycle, end to end -/

theorem send_all_fits (items : List adc_t) :
    ∀ queue : List adc_t, queue.length + items.length ≤ queue_length →
      send_all queue items = some (queue ++ items) := by
  induction items with
  | nil => intro queue _; simp [send_all]
  | cons item rest ih =>
    intro queue h
    have hl : queue.length < queue_length := by
      simp only [List.length_cons] at h
      omega
    have hs : xQueueSend queue item = some (queue ++ [item]) := by
      unfold xQueueSend
      rw [if_pos hl]
    have hl2 : (queue ++ [item]).length + rest.length ≤ queue_length := by
      simp only [List.length_append, List.length_cons, List.length_nil] at h ⊢
      omega
    unfold send_all
    rw [hs]
    simp only
    rw [ih (queue ++ [item]) hl2]
    simp

theorem uart_task_drains (queue : List adc_t) :
    ∀ (fuel : Nat) (out : List Nat), queue.length ≤ fuel →
      uart_task fuel queue out = ([], out ++ queue.flatMap uart_packet) := by
  induction queue with
  | nil =>
    intro fuel out _
    cases fuel <;> simp [uart_task, xQueueReceive]
  | cons item rest ih =>
    intro fuel out h
    cases fuel with
    | zero => simp at h
    | succ n =>
      simp only [List.length_cons] at h
      unfold uart_task
      simp only [xQueueReceive]
      rw [ih n _ (by omega)]
      simp [List.flatMap_cons]

theorem tilt_events_int (roll yaw : Int) (pitch : ℚ) :
    tilt_events { roll := roll, pitch := pitch, yaw := yaw } =
      (if 10 < |yaw| then [{ axis := 0, val := yaw }] else []) ++
        (if 10 < |roll| then [{ axis := 1, val := roll }] else []) := by
  have hc : ∀ n : Int, (((n : ℚ) > 10 ∨ (n : ℚ) < -10) ↔ 10 < |n|) := by
    intro n
    have e1 : ((n : ℚ) > 10) ↔ 10 < n := by
      constructor <;> intro h <;> exact_mod_cast h
    have e2 : ((n : ℚ) < -10) ↔ n < -10 := by
      constructor <;> intro h <;> exact_mod_cast h
    rw [e1, e2, lt_abs]
    constructor <;> (intro h; rcases h with h | h)
    · left; exact h
    · right; omega
    · left; exact h
    · right; omega
  unfold tilt_events
  simp only [hc, floatToInt_intCast]

theorem packet_small (axis v : Int) (ha : axis = 0 ∨ axis = 1) (h1 : -180 ≤ v) (h2 : v ≤ 180) :
    uart_packet { axis := axis, val := v } = [axis.toNat, spec_hi v, spec_lo v, 0xFF] := by
  rw [packet_eq]
  simp only [toInt16_of_range (by omega : -32768 ≤ v) (by omega : v ≤ 32767)]
  rcases ha with h | h <;> subst h <;> rfl

/-- C6: for every pair of integer-degree angles `(yaw, roll)` in
`[-180, 180]`, the byte stream transmitted for one sampling cycle is the frame
`[0x00, hi(yaw), lo(yaw), 0xFF]` when `|yaw| > 10` followed by the frame
`[0x01, hi(roll), lo(roll), 0xFF]` when `|roll| > 10`, and nothing else.  So
`(15, 0)` gives `00 00 0F FF`, `(0, -20)` gives `01 FF EC FF`, and `(15, -20)`
gives `00 00 0F FF 01 FF EC FF`, the yaw frame first. -/
theorem cycle_output :
    (∀ (yaw roll : Int) (pitch : ℚ) (fuel : Nat),
        -180 ≤ yaw → yaw ≤ 180 → -180 ≤ roll → roll ≤ 180 → 2 ≤ fuel →
        ∃ queue, send_all [] (tilt_events { roll := roll, pitch := pitch, yaw := yaw })
            = some queue ∧
          uart_task fuel queue [] =
            ([], (if 10 < |yaw| then [0x00, spec_hi yaw, spec_lo yaw, 0xFF] else []) ++
              (if 10 < |roll| then [0x01, spec_hi roll, spec_lo roll, 0xFF] else []))) ∧
      (∃ queue, send_all [] (tilt_events { roll := 0, pitch := 0, yaw := 15 }) = some queue ∧
        uart_task 2 queue [] = ([], [0x00, 0x00, 0x0F, 0xFF])) ∧
      (∃ queue, send_all [] (tilt_events { roll := -20, pitch := 0, yaw := 0 }) = some queue ∧
        uart_task 2 queue [] = ([], [0x01, 0xFF, 0xEC, 0xFF])) ∧
      (∃ queue, send_all [] (tilt_events { roll := -20, pitch := 0, yaw := 15 }) = some queue ∧
        uart_task 2 queue [] = ([], [0x00, 0x00, 0x0F, 0xFF, 0x01, 0xFF, 0xEC, 0xFF])) := by
  have gen : ∀ (yaw roll : Int) (pitch : ℚ) (fuel : Nat),
      -180 ≤ yaw → yaw ≤ 180 → -180 ≤ roll → roll ≤ 180 → 2 ≤ fuel →
      ∃ queue, send_all [] (tilt_events { roll := roll, pitch := pitch, yaw := yaw })
          = some queue ∧
        uart_task fuel queue [] =
          ([], (if 10 < |yaw| then [0x00, spec_hi yaw, spec_lo yaw, 0xFF] else []) ++
            (if 10 < |roll| then [0x01, spec_hi roll, spec_lo roll, 0xFF] else [])) := by
    intro yaw roll pitch fuel hy1 hy2 hr1 hr2 hf
    have hlen : (tilt_events { roll := roll, pitch := pitch, yaw := yaw }).length ≤ 2 := by
      rw [tilt_events_int]
      split <;> split <;> simp
    refine ⟨_, send_all_fits _ [] (by simp only [List.length_nil, queue_length]; omega), ?_⟩
    rw [List.nil_append, uart_task_drains _ fuel [] (by omega), tilt_events_int]
    have py := packet_small 0 yaw (Or.inl rfl) hy1 hy2
    have pr := packet_small 1 roll (Or.inr rfl) hr1 hr2
    split <;> split <;> simp [List.flatMap_cons, py, pr]
  refine ⟨gen, ?_, ?_, ?_⟩
  · have h := gen 15 0 0 2 (by decide) (by decide) (by decide) (by decide) (by decide)
    simpa [spec_hi, spec_lo] using h
  · have h := gen 0 (-20) 0 2 (by decide) (by decide) (by decide) (by decide) (by decide)
    simpa [spec_hi, spec_lo] using h
  · have h := gen 15 (-20) 0 2 (by decide) (by decide) (by decide) (by decide) (by decide)
    simpa [spec_hi, spec_lo] using h

/-- Check of `cycle_output` on a yaw of 15 and a roll of -20 degrees, with the
transmitter given three iterations. -/
theorem cycle_output_witness :
    ∃ queue, send_all [] (tilt_events { roll := -20, pitch := 0, yaw := 15 }) = some queue ∧
      uart_task 3 queue [] = ([], [0x00, 0x00, 0x0F, 0xFF, 0x01, 0xFF, 0xEC, 0xFF]) := by
  have h := cycle_output.1 15 (-20) 0 3 (by decide) (by decide) (by decide) (by decide)
    (by decide)
  simpa [spec_hi, spec_lo] using h

/-! ## Hand-off through the queue -/

theorem xQueueSend_some {queue queue' : List adc_t} {item : adc_t}
    (h : xQueueSend queue item = some queue') :
    queue.length < queue_length ∧ queue' = queue ++ [item] := by
  unfold xQueueSend at h
  split at h
  · exact ⟨by assumption, by simpa using h.symm⟩
  · simp at h

theorem xQueueReceive_some {queue queue' : List adc_t} {item : adc_t}
    (h : xQueueReceive queue = some (item, queue')) : queue = item :: queue' := by
  unfold xQueueReceive at h
  split at h
  · simp at h
  · simp only [Option.some.injEq, Prod.mk.injEq] at h
    rw [h.1, h.2]

/-- C9: in every state reachable by the steps of the producer (a send of a
detected event, enabled only while the queue holds fewer than 32 events) and
of the consumer (a receive of the head event followed by the transmission of
its frame), the queue holds at most 32 events; the events sent so far are
exactly the events already received followed by the events in the queue, so
none is dropped, duplicated or coalesced; every detected event is sent or
still pending; and the bytes transmitted are the frames of the received
events, a prefix of the events produced, in the same order. -/
theorem fifo_handoff (s : Pipeline) (h : Reachable s) :
    s.queue.length ≤ 32 ∧
      s.detected = s.produced ++ s.pending ∧
      ∃ received : List adc_t,
        s.produced = received ++ s.queue ∧
          s.uart = received.flatMap uart_packet ∧
          s.uart.length = 4 * received.length := by
  induction h with
  | init => exact ⟨by decide, rfl, [], rfl, rfl, rfl⟩
  | step s t _ ht ih =>
    obtain ⟨hlen, hdet, received, hprod, huart, hul⟩ := ih
    cases ht with
    | sample native hp =>
      refine ⟨hlen, ?_, received, hprod, huart, hul⟩
      simp only [hdet, hp, List.append_nil]
    | send item rest queue' hp hq =>
      obtain ⟨hlt, hq'⟩ := xQueueSend_some hq
      refine ⟨?_, ?_, received, ?_, huart, hul⟩
      · simp only [hq', List.length_append, List.length_cons, List.length_nil]
        unfold queue_length at hlt
        omega
      · simp only [hdet, hp, List.append_assoc, List.singleton_append]
      · simp only [hprod, hq', List.append_assoc]
    | receive item queue' hq =>
      have hq' := xQueueReceive_some hq
      refine ⟨?_, hdet, received ++ [item], ?_, ?_, ?_⟩
      · simp only [hq', List.length_cons] at hlen
        simp only
        omega
      · simp only [hprod, hq', List.append_assoc, List.singleton_append]
      · simp only [huart, List.flatMap_append, List.flatMap_cons, List.flatMap_nil,
          List.append_nil]
      · have h4 : (uart_packet item).length = 4 := by rw [packet_eq]; rfl
        simp only [List.length_append, hul, h4, List.length_cons, List.length_nil]
        omega

theorem sample_state_reachable : Reachable sample_state := by
  have hc : mpu6050_cycle { roll := 20, pitch := 0, yaw := -15 } =
      [{ axis := 0, val := 15 }, { axis := 1, val := -20 }] := by
    have h1 : floatToInt (15 : ℚ) = 15 := by
      have := floatToInt_intCast 15
      simpa using this
    have h2 : floatToInt (-20 : ℚ) = -20 := by
      have := floatToInt_intCast (-20)
      simpa using this
    unfold mpu6050_cycle flip_roll_yaw tilt_events
    norm_num [h1, h2]
  have r1 := Reachable.step _ _ Reachable.init
    (Step.sample Pipeline.init { roll := 20, pitch := 0, yaw := -15 } rfl)
  rw [hc] at r1
  have r2 := Reachable.step _ _ r1
    (Step.send _ { axis := 0, val := 15 } [{ axis := 1, val := -20 }]
      [{ axis := 0, val := 15 }] rfl rfl)
  have r3 := Reachable.step _ _ r2
    (Step.receive _ { axis := 0, val := 15 } [] rfl)
  exact r3

/-- Check of `fifo_handoff` on `sample_state`. -/
theorem fifo_handoff_witness :
    Reachable sample_state ∧ sample_state.queue.length ≤ 32 ∧
      sample_state.detected = sample_state.produced ++ sample_state.pending :=
  ⟨sample_state_reachable,
    (fifo_handoff sample_state sample_state_reachable).1,
    (fifo_handoff sample_state sample_state_reachable).2.1⟩

end Imu
